import Mathlib

/-!
Verification of the TTL map in `command/alert` (file `unnamed/part_000`)
of go-elasticsearch-alerts: a concurrent key-value cache whose entries
expire after a configurable idle time.

The Go state `map[string]*item` guarded by a mutex is embedded as an
association list of `(key, item)` pairs; each public operation is the
body of its Go critical section, with the wall-clock reading
`time.Now().Unix()` passed in explicitly as an `Int` argument.  One tick
of the sweeper goroutine started by `NewTTLMap` is embedded as
`sweepPass`.  Pointer mutation of an `item` becomes functional update of
the pair holding it.
-/

/-- Go `type item struct { value int; lastAccess int64 }`. -/
structure item where
  value : Int
  lastAccess : Int
deriving Repr, DecidableEq

/-- The backing store `m map[string]*item` of Go `type TTLMap`. -/
abbrev TTLMap := List (String × item)

/-- Go map indexing `m.m[k]`: the item stored under `k`, if any. -/
def ttlLookup (k : String) : TTLMap → Option item
  | [] => none
  | p :: ps => if p.1 = k then some p.2 else ttlLookup k ps

/-- The pointer write `it.lastAccess = now` performed on the entry for
`k` by `Put` and `Get`, as a functional update of one pair. -/
def touch (k : String) (now : Int) (p : String × item) : String × item :=
  if p.1 = k then (p.1, { p.2 with lastAccess := now }) else p

/-- Go `func (m *TTLMap) Len() int { return len(m.m) }`. -/
def Len (m : TTLMap) : Nat := m.length

/-- Go `func (m *TTLMap) Put(k string, v int)`: if `k` is absent a new
`item{value: v}` is inserted; in both cases `lastAccess` is then set to
now.  Note the Go code does not assign `it.value = v` when `k` is
already present. -/
def Put (m : TTLMap) (k : String) (v : Int) (now : Int) : TTLMap :=
  match ttlLookup k m with
  | none => (k, { value := v, lastAccess := now }) :: m
  | some _ => m.map (touch k now)

/-- Go `func (m *TTLMap) Get(k string) (v int)`: returns the stored
value and refreshes `lastAccess` when `k` is present; returns the zero
value `0` and leaves the map alone when absent.  The pair is
(returned value, map after the call). -/
def Get (m : TTLMap) (k : String) (now : Int) : Int × TTLMap :=
  match ttlLookup k m with
  | some it => (it.value, m.map (touch k now))
  | none => (0, m)

/-- One tick of the sweeper goroutine in `NewTTLMap`: delete every entry
with `now.Unix() - v.lastAccess > int64(maxTTL)`. -/
def sweepPass (m : TTLMap) (now : Int) (maxTTL : Int) : TTLMap :=
  m.filter (fun p => ! decide (now - p.2.lastAccess > maxTTL))

/-- `putList m kvs t`: the state after one `Put` per pair of `kvs`, in
order, all at time `t` (the "N distinct Put calls" scenario). -/
def putList (m : TTLMap) (kvs : List (String × Int)) (t : Int) : TTLMap :=
  kvs.foldl (fun acc p => Put acc p.1 p.2 t) m

/-! ### Helper lemmas -/

theorem ttlLookup_map_touch_self (k : String) (now : Int) (m : TTLMap) :
    ttlLookup k (m.map (touch k now)) =
      (ttlLookup k m).map (fun it => { it with lastAccess := now }) := by
  induction m with
  | nil => rfl
  | cons p ps ih =>
    by_cases h : p.1 = k
    · simp [ttlLookup, touch, h]
    · simp [ttlLookup, touch, h, ih]

theorem ttlLookup_map_touch_ne (kp k : String) (now : Int) (m : TTLMap)
    (hne : kp ≠ k) :
    ttlLookup kp (m.map (touch k now)) = ttlLookup kp m := by
  induction m with
  | nil => rfl
  | cons p ps ih =>
    by_cases h : p.1 = k
    · simp [ttlLookup, touch, h, Ne.symm hne, ih]
    · by_cases h3 : p.1 = kp
      · simp [ttlLookup, touch, h, h3, hne]
      · simp [ttlLookup, touch, h, h3, hne, ih]

theorem ttlLookup_filter_of_keep (k : String) (it : item)
    (q : String × item → Bool) (m : TTLMap)
    (hfound : ttlLookup k m = some it) (hkeep : q (k, it) = true) :
    ttlLookup k (m.filter q) = some it := by
  induction m with
  | nil => simp [ttlLookup] at hfound
  | cons p ps ih =>
    by_cases h : p.1 = k
    · have hit : p.2 = it := by
        simpa [ttlLookup, h] using hfound
      have hp : p = (k, it) := by
        cases p; simp_all
      subst hp
      simp [List.filter, hkeep, ttlLookup]
    · have hfound2 : ttlLookup k ps = some it := by
        simpa [ttlLookup, h] using hfound
      cases hq : q p with
      | false => simpa [List.filter, hq] using ih hfound2
      | true =>
        simpa [List.filter, hq, ttlLookup, h] using ih hfound2

theorem ttlLookup_Put_self (m : TTLMap) (k : String) (v t : Int) :
    ∃ it, ttlLookup k (Put m k v t) = some it ∧ it.lastAccess = t := by
  unfold Put
  cases hm : ttlLookup k m with
  | none => exact ⟨{ value := v, lastAccess := t }, by simp [ttlLookup], rfl⟩
  | some it0 =>
    refine ⟨{ it0 with lastAccess := t }, ?_, rfl⟩
    rw [ttlLookup_map_touch_self, hm]
    rfl

theorem Put_absent (m : TTLMap) (k : String) (v t : Int)
    (h : ttlLookup k m = none) :
    Put m k v t = (k, { value := v, lastAccess := t }) :: m := by
  unfold Put
  rw [h]

theorem Put_present (m : TTLMap) (k : String) (v t : Int) (it : item)
    (h : ttlLookup k m = some it) :
    Put m k v t = m.map (touch k t) := by
  unfold Put
  rw [h]

theorem Get_present (m : TTLMap) (k : String) (now : Int) (it : item)
    (h : ttlLookup k m = some it) :
    Get m k now = (it.value, m.map (touch k now)) := by
  unfold Get
  rw [h]

theorem Get_absent (m : TTLMap) (k : String) (now : Int)
    (h : ttlLookup k m = none) :
    Get m k now = (0, m) := by
  unfold Get
  rw [h]

theorem ttlLookup_Put_ne (m : TTLMap) (k : String) (v t : Int) (kp : String)
    (hne : kp ≠ k) :
    ttlLookup kp (Put m k v t) = ttlLookup kp m := by
  unfold Put
  cases hm : ttlLookup k m with
  | none => simp [ttlLookup, Ne.symm hne]
  | some it0 => exact ttlLookup_map_touch_ne kp k t m hne

/-! ### Claim theorems -/

/-- C1 counterexample: starting from the empty map, `Put "a" 1` then
`Put "a" 2` leaves `Get "a"` returning 1, not 2 — the second `Put` on
the already-present key does not overwrite the stored value. -/
theorem put_put_get_overwrite_cex :
    (Get (Put (Put ([] : TTLMap) "a" 1 0) "a" 2 0) "a" 0).1 ≠ 2 ∧
      (Get (Put (Put ([] : TTLMap) "a" 1 0) "a" 2 0) "a" 0).1 = 1 := by
  decide

/-- C1 (amended): after `Put k v1` on a map where `k` is absent,
followed by `Put k v2`, `Get k` returns v1 — a `Put` on a key that is
already present refreshes only `lastAccess` and leaves the stored value
unchanged. -/
theorem put_put_get_keeps_first_value (m : TTLMap) (k : String)
    (v1 v2 t1 t2 t3 : Int) (h : ttlLookup k m = none) :
    (Get (Put (Put m k v1 t1) k v2 t2) k t3).1 = v1 := by
  rw [Put_absent m k v1 t1 h]
  have h1 : ttlLookup k ((k, { value := v1, lastAccess := t1 }) :: m) =
      some { value := v1, lastAccess := t1 } := by
    simp [ttlLookup]
  rw [Put_present _ _ _ _ _ h1]
  have h2 : ttlLookup k
      (((k, { value := v1, lastAccess := t1 }) :: m).map (touch k t2)) =
      some { value := v1, lastAccess := t2 } := by
    rw [ttlLookup_map_touch_self, h1]
    rfl
  rw [Get_present _ _ _ _ h2]

/-- C1 witness for the amended theorem at a concrete input. -/
theorem put_put_get_keeps_first_value_witness :
    ttlLookup "a" ([] : TTLMap) = none ∧
      (Get (Put (Put ([] : TTLMap) "a" 5 0) "a" 7 1) "a" 2).1 = 5 :=
  ⟨rfl, put_put_get_keeps_first_value [] "a" 5 7 0 1 2 rfl⟩

/-- C2: a sweep pass at time `now` keeps an entry of the map exactly
when `now - lastAccess` does not strictly exceed `maxTTL`; in
particular an entry whose idle time equals `maxTTL` survives. -/
theorem sweep_removes_iff_strictly_idle (m : TTLMap) (now ttl : Int)
    (k : String) (it : item) (h : (k, it) ∈ m) :
    (k, it) ∈ sweepPass m now ttl ↔ ¬ (now - it.lastAccess > ttl) := by
  unfold sweepPass
  simp [List.mem_filter, h]

/-- C2 witness: idle time exactly equal to the TTL survives the sweep. -/
theorem sweep_removes_iff_strictly_idle_witness :
    (("a", { value := 0, lastAccess := 0 }) : String × item) ∈
      sweepPass [("a", { value := 0, lastAccess := 0 })] 5 5 :=
  (sweep_removes_iff_strictly_idle
      [("a", { value := 0, lastAccess := 0 })] 5 5 "a"
      { value := 0, lastAccess := 0 } (by decide)).mpr (by decide)

/-- C3 counterexample: `Put "b" 4` on a map where "b" already holds 3
is immediately followed by a `Get "b"` that returns 3, not 4. -/
theorem get_after_put_cex :
    (Get (Put (Put ([] : TTLMap) "b" 3 0) "b" 4 0) "b" 0).1 ≠ 4 := by
  decide

/-- C3 (amended): immediately after `Put k v` on a map where `k` was
absent, `Get k` returns v; when `k` was already present the stored
value, not v, is returned. -/
theorem get_after_put_fresh (m : TTLMap) (k : String) (v t t2 : Int)
    (h : ttlLookup k m = none) :
    (Get (Put m k v t) k t2).1 = v := by
  rw [Put_absent m k v t h]
  have h1 : ttlLookup k ((k, { value := v, lastAccess := t }) :: m) =
      some { value := v, lastAccess := t } := by
    simp [ttlLookup]
  rw [Get_present _ _ _ _ h1]

/-- C3 witness for the amended theorem at a concrete input. -/
theorem get_after_put_fresh_witness :
    ttlLookup "c" ([] : TTLMap) = none ∧
      (Get (Put ([] : TTLMap) "c" 6 0) "c" 1).1 = 6 :=
  ⟨rfl, get_after_put_fresh [] "c" 6 0 1 rfl⟩

/-- C4: `Get` on an absent key returns the zero value 0 (and, being a
total function, signals no error). -/
theorem get_absent_returns_zero (m : TTLMap) (k : String) (now : Int)
    (h : ttlLookup k m = none) :
    (Get m k now).1 = 0 := by
  rw [Get_absent m k now h]

/-- C4 witness: a key never put returns 0 on a nonempty map. -/
theorem get_absent_returns_zero_witness :
    ttlLookup "x" [("a", { value := 3, lastAccess := 0 })] = none ∧
      (Get [("a", { value := 3, lastAccess := 0 })] "x" 9).1 = 0 :=
  ⟨rfl, get_absent_returns_zero [("a", { value := 3, lastAccess := 0 })] "x" 9 rfl⟩

/-- C5: sliding expiration.  An entry touched at time `t` — freshly
written or refreshed by `Put k v t`, or read by `Get k t` while present
— has `lastAccess = t` and survives, unchanged, a sweep pass at any
time `tp` with `tp - t ≤ ttl`. -/
theorem sliding_expiration (m : TTLMap) (k : String) (v t tp ttl : Int)
    (h : tp - t ≤ ttl) :
    (∃ it, ttlLookup k (Put m k v t) = some it ∧ it.lastAccess = t ∧
        ttlLookup k (sweepPass (Put m k v t) tp ttl) = some it) ∧
    (∀ it0, ttlLookup k m = some it0 →
      ∃ it, ttlLookup k (Get m k t).2 = some it ∧ it.lastAccess = t ∧
        ttlLookup k (sweepPass ((Get m k t).2) tp ttl) = some it) := by
  have hkeep : ∀ it : item, it.lastAccess = t →
      (fun p : String × item => ! decide (tp - p.2.lastAccess > ttl)) (k, it)
        = true := by
    intro it hit
    simp only [hit, Bool.not_eq_true', decide_eq_false_iff_not]
    omega
  constructor
  · obtain ⟨it, hl, hla⟩ := ttlLookup_Put_self m k v t
    refine ⟨it, hl, hla, ?_⟩
    unfold sweepPass
    exact ttlLookup_filter_of_keep k it _ _ hl (hkeep it hla)
  · intro it0 h0
    rw [Get_present m k t it0 h0]
    have hl : ttlLookup k (m.map (touch k t)) =
        some { it0 with lastAccess := t } := by
      rw [ttlLookup_map_touch_self, h0]
      rfl
    refine ⟨{ it0 with lastAccess := t }, hl, rfl, ?_⟩
    unfold sweepPass
    exact ttlLookup_filter_of_keep k _ _ _ hl (hkeep _ rfl)

/-- C5 witness at a concrete input: the entry written at time 0 is
still found, untouched, by the sweep at time 3 with TTL 5. -/
theorem sliding_expiration_witness :
    ∃ it, ttlLookup "a" (Put ([] : TTLMap) "a" 2 0) = some it ∧
      it.lastAccess = 0 ∧
      ttlLookup "a" (sweepPass (Put ([] : TTLMap) "a" 2 0) 3 5) = some it :=
  (sliding_expiration [] "a" 2 0 3 5 (by decide)).1

/-- C6: a key `k` that a sweep pass has just evicted (absent from the
swept map) gets a completely fresh entry on the next `Put k v t`:
value v, `lastAccess` t, nothing carried over. -/
theorem put_after_eviction_fresh (m : TTLMap) (now ttl : Int)
    (k : String) (v t : Int)
    (h : ttlLookup k (sweepPass m now ttl) = none) :
    ttlLookup k (Put (sweepPass m now ttl) k v t) =
      some { value := v, lastAccess := t } := by
  rw [Put_absent _ _ _ _ h]
  simp [ttlLookup]

/-- C6 witness: "a" idle for 10 s with TTL 5 is evicted; the next
`Put "a" 7` creates a fresh entry with value 7 and `lastAccess` 10. -/
theorem put_after_eviction_fresh_witness :
    ttlLookup "a" (sweepPass [("a", { value := 9, lastAccess := 0 })] 10 5)
        = none ∧
      ttlLookup "a"
        (Put (sweepPass [("a", { value := 9, lastAccess := 0 })] 10 5)
          "a" 7 10) = some { value := 7, lastAccess := 10 } :=
  ⟨by decide,
   put_after_eviction_fresh [("a", { value := 9, lastAccess := 0 })] 10 5
     "a" 7 10 (by decide)⟩

theorem Len_putList_of_fresh (kvs : List (String × Int)) (t : Int) :
    ∀ m : TTLMap, (kvs.map Prod.fst).Nodup →
      (∀ p ∈ kvs, ttlLookup p.1 m = none) →
      Len (putList m kvs t) = Len m + kvs.length := by
  induction kvs with
  | nil =>
    intro m _ _
    simp [putList, Len]
  | cons q qs ih =>
    intro m hnd habs
    have hq : ttlLookup q.1 m = none := habs q (List.mem_cons_self q qs)
    have hput : Put m q.1 q.2 t =
        (q.1, { value := q.2, lastAccess := t }) :: m :=
      Put_absent m q.1 q.2 t hq
    have hnd2 : (qs.map Prod.fst).Nodup := by
      simp only [List.map_cons, List.nodup_cons] at hnd
      exact hnd.2
    have hqs : q.1 ∉ qs.map Prod.fst := by
      simp only [List.map_cons, List.nodup_cons] at hnd
      exact hnd.1
    have habs2 : ∀ p ∈ qs, ttlLookup p.1 (Put m q.1 q.2 t) = none := by
      intro p hp
      have hne : q.1 ≠ p.1 := by
        intro hc
        exact hqs (hc ▸ List.mem_map_of_mem Prod.fst hp)
      rw [hput]
      simp only [ttlLookup, hne, if_false]
      exact habs p (List.mem_cons_of_mem q hp)
    have hstep : putList m (q :: qs) t = putList (Put m q.1 q.2 t) qs t := by
      simp [putList, List.foldl]
    rw [hstep, ih (Put m q.1 q.2 t) hnd2 habs2, hput]
    simp [Len]
    omega

/-- C7: `Len` counts the entries: after one `Put` per pair of a list of
pairwise-distinct keys, starting from the empty map and before any
sweep, `Len` equals the number of keys put. -/
theorem len_after_distinct_puts (kvs : List (String × Int)) (t : Int)
    (h : (kvs.map Prod.fst).Nodup) :
    Len (putList [] kvs t) = kvs.length := by
  have hbase : ∀ p ∈ kvs, ttlLookup p.1 ([] : TTLMap) = none := by
    intro p _
    rfl
  have := Len_putList_of_fresh kvs t [] h hbase
  simpa [Len] using this

/-- C7 witness: three distinct keys give `Len` 3. -/
theorem len_after_distinct_puts_witness :
    Len (putList [] [("a", 1), ("b", 2), ("c", 3)] 0) = 3 :=
  len_after_distinct_puts [("a", 1), ("b", 2), ("c", 3)] 0 (by decide)

/-- C8: `Get` on an absent key leaves the map exactly as it was — no
entry created, no entry modified, and `Len` unchanged. -/
theorem get_absent_frame (m : TTLMap) (k : String) (now : Int)
    (h : ttlLookup k m = none) :
    (Get m k now).2 = m ∧ Len (Get m k now).2 = Len m := by
  rw [Get_absent m k now h]
  exact ⟨rfl, rfl⟩

/-- C8 witness: a miss on a nonempty map changes nothing. -/
theorem get_absent_frame_witness :
    (Get [("a", { value := 1, lastAccess := 0 })] "z" 4).2 =
      [("a", { value := 1, lastAccess := 0 })] :=
  (get_absent_frame [("a", { value := 1, lastAccess := 0 })] "z" 4 rfl).1

/-- C9: a sweep pass only deletes: the swept map is a sublist of the
original, so no entry is added and every surviving pair — key, value
and `lastAccess` — is exactly a pair of the original map. -/
theorem sweep_frame (m : TTLMap) (now ttl : Int) :
    List.Sublist (sweepPass m now ttl) m ∧
      ∀ p, p ∈ sweepPass m now ttl → p ∈ m := by
  refine ⟨List.filter_sublist m, fun p hp => ?_⟩
  exact List.Sublist.subset (List.filter_sublist m) hp

/-- C10: the frame of `Put m k v t`: every other key keeps its exact
item, no present key disappears, and `Len` grows by one exactly when
`k` was absent. -/
theorem put_frame (m : TTLMap) (k : String) (v t : Int) :
    (∀ kp, kp ≠ k → ttlLookup kp (Put m k v t) = ttlLookup kp m) ∧
    (∀ kp, ttlLookup kp m ≠ none → ttlLookup kp (Put m k v t) ≠ none) ∧
    (ttlLookup k m = none → Len (Put m k v t) = Len m + 1) ∧
    (∀ it, ttlLookup k m = some it → Len (Put m k v t) = Len m) := by
  refine ⟨fun kp hne => ttlLookup_Put_ne m k v t kp hne, ?_, ?_, ?_⟩
  · intro kp hsome
    by_cases hk : kp = k
    · subst hk
      obtain ⟨it, hl, _⟩ := ttlLookup_Put_self m kp v t
      simp [hl]
    · rw [ttlLookup_Put_ne m k v t kp hk]
      exact hsome
  · intro h
    rw [Put_absent m k v t h]
    simp [Len]
  · intro it h
    rw [Put_present m k v t it h]
    simp [Len]

/-- C10 witness: the four frame facts at concrete inputs. -/
theorem put_frame_witness :
    ttlLookup "b" (Put [("b", { value := 9, lastAccess := 0 })] "a" 1 5) =
        ttlLookup "b" [("b", { value := 9, lastAccess := 0 })] ∧
      ttlLookup "b" (Put [("b", { value := 9, lastAccess := 0 })] "a" 1 5) ≠
        none ∧
      Len (Put ([] : TTLMap) "a" 1 5) = Len ([] : TTLMap) + 1 ∧
      Len (Put [("a", { value := 2, lastAccess := 0 })] "a" 1 5) =
        Len [("a", { value := 2, lastAccess := 0 })] :=
  ⟨(put_frame [("b", { value := 9, lastAccess := 0 })] "a" 1 5).1 "b"
      (by decide),
   (put_frame [("b", { value := 9, lastAccess := 0 })] "a" 1 5).2.1 "b"
      (by decide),
   (put_frame [] "a" 1 5).2.2.1 rfl,
   (put_frame [("a", { value := 2, lastAccess := 0 })] "a" 1 5).2.2.2
      { value := 2, lastAccess := 0 } rfl⟩
